import Mathlib

/-!
Verification of the handwriting-capture stroke pipeline.

The definitions below are a shallow embedding of the repository's stroke
processing code: the vanilla-JS MVP pipeline (resampleStroke, canvasToEm,
approveCurrentCapture's per-stroke build, drawPreview's reveal frame loop)
and the React utility module strokeProcessor.ts (calculateArcLength,
resamplePoints, createVariantFromStrokes).  JavaScript numbers are modelled
as real numbers; Math.hypot and Math.sqrt as Real.sqrt; Math.round as
floor of x + 1/2.
-/

namespace HW

noncomputable section

/-- Raw captured point: canvas position, timestamp in ms, pressure. -/
structure Point where
  x : ℝ
  y : ℝ
  t : ℝ
  p : ℝ

instance : Inhabited Point := ⟨⟨0, 0, 0, 0⟩⟩

/-- Resampled point: em-space position, time delta, pressure, cumulative arc
length. -/
structure RPoint where
  x : ℝ
  y : ℝ
  dt : ℝ
  p : ℝ
  s : ℝ

instance : Inhabited RPoint := ⟨⟨0, 0, 0, 0, 0⟩⟩

/-- A glyph box rectangle on the canvas. -/
structure Rect where
  x : ℝ
  y : ℝ
  w : ℝ
  h : ℝ

/-- A processed stroke: em-space points plus the resampled sequence. -/
structure StrokeP where
  points : List Point
  resampled : List RPoint

/-- Per-variant summary statistics. -/
structure Stats where
  durationMs : ℝ
  arcLen : ℝ

/-- One accepted capture of one character. -/
structure Variant where
  id : String
  starred : Bool
  weight : ℝ
  strokes : List StrokeP
  stats : Stats

/-- JavaScript Math.round: round half toward positive infinity. -/
def jsRound (x : ℝ) : ℤ := ⌊x + 1 / 2⌋

/-- JS Math.round(x * 10) / 10, used by strokeProcessor.ts. -/
def round1 (x : ℝ) : ℝ := (jsRound (x * 10) : ℝ) / 10

/-- JS Math.round(x * 100) / 100, used by strokeProcessor.ts. -/
def round2 (x : ℝ) : ℝ := (jsRound (x * 100) : ℝ) / 100

/-- Math.hypot(b.x - a.x, b.y - a.y): Euclidean distance between points. -/
def ptDist (a b : Point) : ℝ := Real.sqrt ((b.x - a.x) ^ 2 + (b.y - a.y) ^ 2)

/-! ## strokeProcessor.ts -/

/-- calculateArcLength from strokeProcessor.ts: sum of consecutive
point-to-point Euclidean distances, rounded to 2 decimals at the end. -/
def calculateArcLength (points : List Point) : ℝ :=
  round2 ((points.zip points.tail).foldl (fun len ab => len + ptDist ab.1 ab.2) 0)

/-- Loop body of resamplePoints for indices i ≥ 1: prev is points[i-1], cum
the running cumulativeLength. -/
def resamplePointsGo (prev : Point) (cum : ℝ) : List Point → List RPoint
  | [] => []
  | pt :: rest =>
    let seg := Real.sqrt ((pt.x - prev.x) ^ 2 + (pt.y - prev.y) ^ 2)
    ⟨round1 pt.x, round1 pt.y, pt.t - prev.t, round2 pt.p, round1 (cum + seg)⟩ ::
      resamplePointsGo pt (cum + seg) rest

/-- resamplePoints from strokeProcessor.ts.  At index 0 the code takes
prevPoint = point itself, so the segment length is 0, dt is point.t - 0 and
s is round1 0. -/
def resamplePoints : List Point → List RPoint
  | [] => []
  | q :: rest => ⟨round1 q.x, round1 q.y, q.t - 0, round2 q.p, round1 0⟩ ::
      resamplePointsGo q 0 rest

/-- createVariantFromStrokes from strokeProcessor.ts.  The UUID produced by
generateUUID is nondeterministic, so it is taken as a parameter. -/
def createVariantFromStrokes (id : String) (rawStrokes : List (List Point)) : Variant :=
  let strokes := rawStrokes.map fun points => StrokeP.mk points (resamplePoints points)
  let allPoints := rawStrokes.flatten
  let duration : ℝ := match allPoints with
    | [] => 0
    | q :: rest => ((q :: rest).getLast (List.cons_ne_nil q rest)).t - q.t
  let arcLen := strokes.foldl (fun sum st => sum + calculateArcLength st.points) 0
  ⟨id, false, 1, strokes, ⟨duration, round2 arcLen⟩⟩

/-! ## part_000: the vanilla-JS MVP pipeline -/

/-- Linear interpolation of a point at parameter r along the segment a → b,
as computed inside resampleStroke (`nx = a.x + r*dx` etc.). -/
def lerpPt (a b : Point) (r : ℝ) : Point :=
  ⟨a.x + r * (b.x - a.x), a.y + r * (b.y - a.y),
   a.t + r * (b.t - a.t), a.p + r * (b.p - a.p)⟩

/-- Number of interpolated points the resampleStroke while-condition
`acc + d >= step` emits within one original segment, given the incoming
accumulator acc and segment length d: each emission consumes step units of
arc, so the loop fires ⌊(acc + d)/step⌋ times.  (For step ≤ 0 the JS loop
would not terminate; the model returns 0 emissions there and all theorems
assume 0 < step.) -/
def segSteps (step acc d : ℝ) : ℕ := ⌊(acc + d) / step⌋₊

/-- The emissions of resampleStroke inside one original segment, mirroring
the JS loop: each iteration recomputes d = hypot from the freshly spliced
point to the segment end b, interpolates at r = (step - acc)/d, and
continues from the inserted point with acc reset to 0. -/
def segEmit (step : ℝ) : ℕ → Point → Point → ℝ → List Point
  | 0, _, _, _ => []
  | m + 1, a, b, acc =>
    let n := lerpPt a b ((step - acc) / ptDist a b)
    n :: segEmit step m n b 0

/-- The resampleStroke scan over the remaining original points.  Returns the
pair (emitted points in order, final state of the tail of the mutated input
array): the JS code splices every emitted point into `points` just before
the segment end it was interpolated on. -/
def resampleGo (step : ℝ) : Point → List Point → ℝ → List Point × List Point
  | _, [], _ => ([], [])
  | a, b :: rest, acc =>
    let d := ptDist a b
    let m := segSteps step acc d
    let ns := segEmit step m a b acc
    let res := resampleGo step b rest (acc + d - m * step)
    (ns ++ res.1, ns ++ b :: res.2)

/-- resampleStroke from part_000.  Returns (out, final state of the input
array `points` after the splices).  With fewer than 2 points the code
returns points.slice() and performs no mutation.  The final
`out.push(points[points.length-1])` is guarded in JS by a reference
inequality `out[out.length-1] !== points[points.length-1]`; the last element
of out is always either points[0] or a freshly allocated interpolated
object, and the last element of the (spliced) array is always the original
last input object, so the guard is true in every reachable call and the
model appends unconditionally. -/
def resampleStroke (points : List Point) (step : ℝ) : List Point × List Point :=
  match points with
  | [] => ([], [])
  | [q] => ([q], [q])
  | p0 :: p1 :: rest =>
    let res := resampleGo step p0 (p1 :: rest) 0
    (p0 :: res.1 ++ [(p1 :: rest).getLast (List.cons_ne_nil p1 rest)], p0 :: res.2)

/-- canvasToEm from part_000: affine map of the glyph box onto the em
square, timestamps and pressure passed through. -/
def canvasToEm (points : List Point) (canvasRect : Rect) (emSize : ℝ) : List Point :=
  points.map fun pt =>
    ⟨(pt.x - canvasRect.x) / canvasRect.w * emSize,
     (pt.y - canvasRect.y) / canvasRect.h * emSize, pt.t, pt.p⟩

/-- The `for (let i=1;...)` walk in approveCurrentCapture that turns em-space
points into ResampledPoints: a is em[i-1], sCum the running arc length. -/
def walkResampled (a : Point) (sCum : ℝ) : List Point → List RPoint
  | [] => []
  | b :: rest =>
    let d := ptDist a b
    ⟨b.x, b.y, b.t - a.t, b.p, sCum + d⟩ :: walkResampled b (sCum + d) rest

/-- The ResampledPoint list built by approveCurrentCapture from the em-space
points (before the singleton fallback). -/
def mkResampled : List Point → List RPoint
  | [] => []
  | a :: rest => walkResampled a 0 rest

/-- The per-stroke body of approveCurrentCapture: resample in pixel space at
`stepPx`, normalize to em-space, walk into ResampledPoints; when that walk
is empty, fall back to a single ResampledPoint with dt = 0 and s = 0 built
from em[0].  When em is empty the JS code crashes on `em[0].x` (TypeError),
modelled as `none`; approveCurrentCapture never reaches that case because
every captured stroke is non-empty. -/
def buildStroke (box : Rect) (emSize stepPx : ℝ) (s : List Point) : Option StrokeP :=
  let rs := (resampleStroke s stepPx).1
  let em := canvasToEm rs box emSize
  match mkResampled em, em with
  | [], [] => none
  | [], e :: _ => some ⟨em, [⟨e.x, e.y, 0, e.p, 0⟩]⟩
  | r0 :: r, _ => some ⟨em, r0 :: r⟩

/-! ## part_000: drawPreview reveal engine -/

/-- One reveal segment: a pair of consecutive ResampledPoints of a stroke. -/
structure Seg where
  a : RPoint
  b : RPoint

/-- Consecutive pairs of one stroke's resampled list (`for i=1..` in
drawPreview). -/
def segPairs : List RPoint → List Seg
  | [] => []
  | [_] => []
  | a :: b :: rest => ⟨a, b⟩ :: segPairs (b :: rest)

/-- The global ordered segment list drawPreview builds across all strokes of
the variant. -/
def segmentsOf (v : Variant) : List Seg :=
  v.strokes.flatMap fun s => segPairs s.resampled

/-- totalT from drawPreview: `segments.reduce((acc, seg) => acc +
Math.max(1, seg.b.dt), 0)`. -/
def totalT (segs : List Seg) : ℝ :=
  segs.foldl (fun acc seg => acc + max 1 seg.b.dt) 0

/-- Sum of the raw per-segment time deltas: the total segment duration that
the frame loop's arrival times accumulate (`nextAcc = tAcc + seg.b.dt`). -/
def sumDt (segs : List Seg) : ℝ :=
  (segs.map fun seg => seg.b.dt).sum

/-- The per-frame reveal walk of drawPreview's `frame`: segments whose
arrival time `tAcc + seg.b.dt` is at most `elapsed` are drawn in full; at
the first segment still in progress the loop draws a partial sub-segment at
`clamp((elapsed - tAcc) / max(1, seg.b.dt), 0, 1)` and breaks.  Returns the
fully drawn segments and the optional partial segment with its fraction. -/
def revealGo (elapsed : ℝ) : List Seg → ℝ → List Seg × Option (Seg × ℝ)
  | [], _ => ([], none)
  | seg :: rest, tAcc =>
    let nextAcc := tAcc + seg.b.dt
    if nextAcc ≤ elapsed then
      let res := revealGo elapsed rest nextAcc
      (seg :: res.1, res.2)
    else
      ([], some (seg, max 0 (min 1 ((elapsed - tAcc) / max 1 seg.b.dt))))

/-- One frame evaluation at a given elapsed animation time, starting from
tAcc = 0 as in drawPreview. -/
def revealAt (segs : List Seg) (elapsed : ℝ) : List Seg × Option (Seg × ℝ) :=
  revealGo elapsed segs 0

/-- Maximum of a list of reals (0 on the empty list); used to state the
spec's "max raw timestamp". -/
def listMax : List ℝ → ℝ
  | [] => 0
  | q :: rest => rest.foldl max q

/-- Minimum of a list of reals (0 on the empty list); used to state the
spec's "min raw timestamp". -/
def listMin : List ℝ → ℝ
  | [] => 0
  | q :: rest => rest.foldl min q

/-! ## Canonical JSON shape (schema version 1) and its round-trip

The app persists a character entry as
`{metrics: {advance, bounds:[minX,minY,maxX,maxY], baseline},
variants: [{id, starred, weight, strokes:[{points, resampled}], stats}]}`
via JSON.stringify (saveSession / downloadSession) and reads it back with
JSON.parse (loadSession).  The builtin serialization is modelled as an
explicit encoder to a JSON value tree and a decoder back. -/

/-- Per-character font metrics as persisted. -/
structure Metrics where
  advance : ℝ
  bounds : ℝ × ℝ × ℝ × ℝ
  baseline : ℝ

/-- A persisted character entry. -/
structure CharacterData where
  metrics : Metrics
  variants : List Variant

/-- JSON value tree. -/
inductive Json where
  | null : Json
  | bool (b : Bool) : Json
  | num (x : ℝ) : Json
  | str (s : String) : Json
  | arr (elems : List Json) : Json
  | obj (fields : List (String × Json)) : Json

/-- Object field lookup, first match wins. -/
def jGet : List (String × Json) → String → Option Json
  | [], _ => none
  | (k, v) :: rest, key => if k = key then some v else jGet rest key

def Json.asNum : Json → Option ℝ
  | .num x => some x
  | _ => none

def Json.asStr : Json → Option String
  | .str s => some s
  | _ => none

def Json.asBool : Json → Option Bool
  | .bool b => some b
  | _ => none

def Json.asArr : Json → Option (List Json)
  | .arr l => some l
  | _ => none

def Json.asObj : Json → Option (List (String × Json))
  | .obj fs => some fs
  | _ => none

def kX : String := "x"
def kY : String := "y"
def kT : String := "t"
def kP : String := "p"
def kDt : String := "dt"
def kS : String := "s"
def kPoints : String := "points"
def kResampled : String := "resampled"
def kId : String := "id"
def kStarred : String := "starred"
def kWeight : String := "weight"
def kStrokes : String := "strokes"
def kStats : String := "stats"
def kDurationMs : String := "durationMs"
def kArcLen : String := "arcLen"
def kAdvance : String := "advance"
def kBounds : String := "bounds"
def kBaseline : String := "baseline"
def kMetrics : String := "metrics"
def kVariants : String := "variants"

def encodePoint (q : Point) : Json :=
  .obj [(kX, .num q.x), (kY, .num q.y), (kT, .num q.t), (kP, .num q.p)]

def encodeRPoint (r : RPoint) : Json :=
  .obj [(kX, .num r.x), (kY, .num r.y), (kDt, .num r.dt), (kP, .num r.p), (kS, .num r.s)]

def encodeStroke (s : StrokeP) : Json :=
  .obj [(kPoints, .arr (s.points.map encodePoint)),
        (kResampled, .arr (s.resampled.map encodeRPoint))]

def encodeStats (st : Stats) : Json :=
  .obj [(kDurationMs, .num st.durationMs), (kArcLen, .num st.arcLen)]

def encodeVariant (v : Variant) : Json :=
  .obj [(kId, .str v.id), (kStarred, .bool v.starred), (kWeight, .num v.weight),
        (kStrokes, .arr (v.strokes.map encodeStroke)), (kStats, encodeStats v.stats)]

def encodeMetrics (m : Metrics) : Json :=
  .obj [(kAdvance, .num m.advance),
        (kBounds, .arr [.num m.bounds.1, .num m.bounds.2.1,
                        .num m.bounds.2.2.1, .num m.bounds.2.2.2]),
        (kBaseline, .num m.baseline)]

def encodeCharacterData (cd : CharacterData) : Json :=
  .obj [(kMetrics, encodeMetrics cd.metrics),
        (kVariants, .arr (cd.variants.map encodeVariant))]

def decodePoint (j : Json) : Option Point := do
  let fs ← j.asObj
  let x ← (← jGet fs kX).asNum
  let y ← (← jGet fs kY).asNum
  let t ← (← jGet fs kT).asNum
  let p ← (← jGet fs kP).asNum
  pure ⟨x, y, t, p⟩

def decodeRPoint (j : Json) : Option RPoint := do
  let fs ← j.asObj
  let x ← (← jGet fs kX).asNum
  let y ← (← jGet fs kY).asNum
  let dt ← (← jGet fs kDt).asNum
  let p ← (← jGet fs kP).asNum
  let s ← (← jGet fs kS).asNum
  pure ⟨x, y, dt, p, s⟩

def decodeStroke (j : Json) : Option StrokeP := do
  let fs ← j.asObj
  let points ← (← (← jGet fs kPoints).asArr).mapM decodePoint
  let resampled ← (← (← jGet fs kResampled).asArr).mapM decodeRPoint
  pure ⟨points, resampled⟩

def decodeStats (j : Json) : Option Stats := do
  let fs ← j.asObj
  let d ← (← jGet fs kDurationMs).asNum
  let a ← (← jGet fs kArcLen).asNum
  pure ⟨d, a⟩

def decodeVariant (j : Json) : Option Variant := do
  let fs ← j.asObj
  let id ← (← jGet fs kId).asStr
  let starred ← (← jGet fs kStarred).asBool
  let weight ← (← jGet fs kWeight).asNum
  let strokes ← (← (← jGet fs kStrokes).asArr).mapM decodeStroke
  let stats ← decodeStats (← jGet fs kStats)
  pure ⟨id, starred, weight, strokes, stats⟩

def decodeMetrics (j : Json) : Option Metrics := do
  let fs ← j.asObj
  let advance ← (← jGet fs kAdvance).asNum
  let bl ← (← jGet fs kBounds).asArr
  let baseline ← (← jGet fs kBaseline).asNum
  match bl with
  | [.num b1, .num b2, .num b3, .num b4] => pure ⟨advance, (b1, b2, b3, b4), baseline⟩
  | _ => none

def decodeCharacterData (j : Json) : Option CharacterData := do
  let fs ← j.asObj
  let metrics ← decodeMetrics (← jGet fs kMetrics)
  let variants ← (← (← jGet fs kVariants).asArr).mapM decodeVariant
  pure ⟨metrics, variants⟩

/-! ## JSON round-trip lemmas -/

lemma mapM_loop_of_roundtrip {α : Type} (f : α → Json) (g : Json → Option α)
    (h : ∀ a, g (f a) = some a) :
    ∀ (l acc : List α), List.mapM.loop g (l.map f) acc = some (acc.reverse ++ l) := by
  intro l
  induction l with
  | nil => intro acc; simp [List.mapM.loop]
  | cons a rest ih =>
    intro acc
    rw [List.map_cons, List.mapM.loop, h a]
    show List.mapM.loop g (rest.map f) (a :: acc) = some (acc.reverse ++ a :: rest)
    rw [ih (a :: acc)]
    simp

lemma mapM_map_of_roundtrip {α : Type} (f : α → Json) (g : Json → Option α)
    (h : ∀ a, g (f a) = some a) (l : List α) :
    List.mapM.loop g (l.map f) [] = some l := by
  simpa using mapM_loop_of_roundtrip f g h l []

lemma decodePoint_encodePoint (q : Point) : decodePoint (encodePoint q) = some q := rfl

lemma decodeRPoint_encodeRPoint (r : RPoint) :
    decodeRPoint (encodeRPoint r) = some r := rfl

lemma decodeStats_encodeStats (st : Stats) : decodeStats (encodeStats st) = some st := rfl

lemma decodeMetrics_encodeMetrics (m : Metrics) :
    decodeMetrics (encodeMetrics m) = some m := rfl

lemma decodeStroke_encodeStroke (s : StrokeP) :
    decodeStroke (encodeStroke s) = some s := by
  have hp := mapM_map_of_roundtrip encodePoint decodePoint decodePoint_encodePoint s.points
  have hr := mapM_map_of_roundtrip encodeRPoint decodeRPoint decodeRPoint_encodeRPoint
    s.resampled
  simp [decodeStroke, encodeStroke, jGet, Json.asObj, Json.asArr, hp, hr,
    kPoints, kResampled]

lemma decodeVariant_encodeVariant (v : Variant) :
    decodeVariant (encodeVariant v) = some v := by
  have hs := mapM_map_of_roundtrip encodeStroke decodeStroke decodeStroke_encodeStroke
    v.strokes
  simp [decodeVariant, encodeVariant, jGet, Json.asObj, Json.asArr, Json.asStr,
    Json.asBool, Json.asNum, hs, decodeStats_encodeStats, kId, kStarred, kWeight,
    kStrokes, kStats]

/-! ## General lemmas -/

lemma jsRound_zero : jsRound 0 = 0 := by
  rw [jsRound, Int.floor_eq_zero_iff]
  constructor <;> norm_num

lemma round2_zero : round2 0 = 0 := by
  norm_num [round2, jsRound_zero]

lemma round1_mono {a b : ℝ} (h : a ≤ b) : round1 a ≤ round1 b := by
  have hf : ⌊a * 10 + 1 / 2⌋ ≤ ⌊b * 10 + 1 / 2⌋ := Int.floor_mono (by linarith)
  have hc : ((⌊a * 10 + 1 / 2⌋ : ℤ) : ℝ) ≤ ((⌊b * 10 + 1 / 2⌋ : ℤ) : ℝ) :=
    Int.cast_le.mpr hf
  rw [round1, round1, jsRound, jsRound]
  linarith

lemma calculateArcLength_nil : calculateArcLength [] = 0 := by
  simp [calculateArcLength, round2_zero]

/-! ## Lemmas about resamplePoints (strokeProcessor.ts) -/

lemma resamplePointsGo_s_chain (rest : List Point) : ∀ (prev : Point) (cum : ℝ),
    List.Chain' (fun u v : RPoint => u.s ≤ v.s) (resamplePointsGo prev cum rest) ∧
    ∀ r ∈ (resamplePointsGo prev cum rest).head?, round1 cum ≤ r.s := by
  induction rest with
  | nil => intro prev cum; simp [resamplePointsGo]
  | cons pt rest ih =>
    intro prev cum
    have hseg : (0 : ℝ) ≤ Real.sqrt ((pt.x - prev.x) ^ 2 + (pt.y - prev.y) ^ 2) :=
      Real.sqrt_nonneg _
    obtain ⟨ch, hd⟩ := ih pt (cum + Real.sqrt ((pt.x - prev.x) ^ 2 + (pt.y - prev.y) ^ 2))
    constructor
    · rw [resamplePointsGo]
      exact List.chain'_cons'.mpr ⟨fun y hy => hd y hy, ch⟩
    · intro r hr
      rw [resamplePointsGo] at hr
      simp only [List.head?_cons, Option.mem_def, Option.some.injEq] at hr
      subst hr
      exact round1_mono (by linarith)

/-! ## Lemmas about totalT (drawPreview) -/

lemma totalT_foldl_ge (segs : List Seg) : ∀ acc : ℝ,
    acc + segs.length ≤ segs.foldl (fun a seg => a + max 1 seg.b.dt) acc := by
  induction segs with
  | nil => intro acc; simp
  | cons seg rest ih =>
    intro acc
    have h := ih (acc + max 1 seg.b.dt)
    have h1 : (1 : ℝ) ≤ max 1 seg.b.dt := le_max_left _ _
    simp only [List.foldl_cons, List.length_cons]
    push_cast
    push_cast at h
    linarith

/-! ## Lemmas about monotone timestamp lists (for durationMs) -/

lemma foldl_max_pairwise (xs : List ℝ) : ∀ x : ℝ, List.Pairwise (· ≤ ·) (x :: xs) →
    xs.foldl max x = xs.getLastD x := by
  induction xs with
  | nil => intro x _; rfl
  | cons y ys ih =>
    intro x h
    rw [List.pairwise_cons] at h
    have hxy : x ≤ y := h.1 y (List.mem_cons_self y ys)
    have hfold : List.foldl max x (y :: ys) = List.foldl max y ys := by
      simp [max_eq_right hxy]
    rw [hfold, ih y h.2, List.getLastD_cons]

lemma foldl_min_pairwise (xs : List ℝ) : ∀ x : ℝ, List.Pairwise (· ≤ ·) (x :: xs) →
    xs.foldl min x = x := by
  induction xs with
  | nil => intro x _; simp
  | cons y ys ih =>
    intro x h
    rw [List.pairwise_cons] at h
    have hxy : x ≤ y := h.1 y (List.mem_cons_self y ys)
    have hx : List.Pairwise (· ≤ ·) (x :: ys) := by
      rw [List.pairwise_cons]
      refine ⟨fun b hb => h.1 b (List.mem_cons_of_mem y hb), ?_⟩
      exact (List.pairwise_cons.mp h.2).2
    have : List.foldl min x (y :: ys) = List.foldl min x ys := by
      simp [min_eq_left hxy]
    rw [this, ih x hx]

lemma getLastD_t_map (q : Point) (rest : List Point) :
    (rest.map Point.t).getLastD q.t = (rest.getLastD q).t := by
  induction rest generalizing q with
  | nil => rfl
  | cons r rs ih =>
    rw [List.map_cons, List.getLastD_cons, List.getLastD_cons]
    exact ih r

lemma arcLen_foldl_all_empty (l : List (List Point)) (h : ∀ s ∈ l, s = []) :
    ∀ acc : ℝ, List.foldl (fun sum st => sum + calculateArcLength st.points) acc
      (l.map fun points => StrokeP.mk points (resamplePoints points)) = acc := by
  induction l with
  | nil => intro acc; simp
  | cons s rest ih =>
    intro acc
    have hs : s = [] := h s (List.mem_cons_self s rest)
    subst hs
    simp only [List.map_cons, List.foldl_cons, calculateArcLength_nil, add_zero]
    exact ih (fun s hs => h s (List.mem_cons_of_mem _ hs)) acc

/-! ## Geometric lemmas about ptDist and lerpPt -/

lemma ptDist_nonneg (a b : Point) : 0 ≤ ptDist a b := Real.sqrt_nonneg _

lemma ptDist_self (a : Point) : ptDist a a = 0 := by
  simp [ptDist]

lemma ptDist_eq_complex (a b : Point) :
    ptDist a b = dist (⟨a.x, a.y⟩ : ℂ) (⟨b.x, b.y⟩ : ℂ) := by
  rw [Complex.dist_eq, Complex.abs_apply, ptDist]
  have hsub : (⟨a.x, a.y⟩ : ℂ) - ⟨b.x, b.y⟩ = ⟨a.x - b.x, a.y - b.y⟩ := by
    apply Complex.ext <;> simp
  rw [hsub, Complex.normSq_mk]
  congr 1
  ring

lemma ptDist_triangle (a b c : Point) : ptDist a c ≤ ptDist a b + ptDist b c := by
  rw [ptDist_eq_complex a c, ptDist_eq_complex a b, ptDist_eq_complex b c]
  exact dist_triangle _ _ _

lemma ptDist_lerp_left (a b : Point) (r : ℝ) (h0 : 0 ≤ r) :
    ptDist a (lerpPt a b r) = r * ptDist a b := by
  rw [ptDist, ptDist, lerpPt]
  have hsq : (a.x + r * (b.x - a.x) - a.x) ^ 2 + (a.y + r * (b.y - a.y) - a.y) ^ 2 =
      r ^ 2 * ((b.x - a.x) ^ 2 + (b.y - a.y) ^ 2) := by ring
  rw [hsq, Real.sqrt_mul (sq_nonneg r), Real.sqrt_sq h0]

lemma ptDist_lerp_right (a b : Point) (r : ℝ) (h1 : r ≤ 1) :
    ptDist (lerpPt a b r) b = (1 - r) * ptDist a b := by
  rw [ptDist, ptDist, lerpPt]
  have hsq : (b.x - (a.x + r * (b.x - a.x))) ^ 2 + (b.y - (a.y + r * (b.y - a.y))) ^ 2 =
      (1 - r) ^ 2 * ((b.x - a.x) ^ 2 + (b.y - a.y) ^ 2) := by ring
  rw [hsq, Real.sqrt_mul (sq_nonneg (1 - r)), Real.sqrt_sq (by linarith)]

/-! ## getLastD helpers -/

lemma getLastD_append {α : Type} (l1 : List α) (l2 : List α) : ∀ d : α,
    (l1 ++ l2).getLastD d = l2.getLastD (l1.getLastD d) := by
  induction l1 with
  | nil => intro d; rfl
  | cons x xs ih =>
    intro d
    rw [List.cons_append, List.getLastD_cons, List.getLastD_cons, ih x]

lemma getLast?_cons_getLastD {α : Type} (a : α) (l : List α) :
    (a :: l).getLast? = some (l.getLastD a) := by
  induction l generalizing a with
  | nil => rfl
  | cons b bs ih => rw [List.getLastD_cons, List.getLast?_cons_cons, ih b]

/-! ## Spacing invariants of resampleStroke

The JS loop emits a point exactly when the accumulated arc since the last
emission reaches `step`, so consecutive output points are `step` apart
along the input polyline; their straight-line (chord) distance is therefore
at most `step`.  The lemmas below carry the loop invariants: the incoming
accumulator satisfies 0 ≤ acc < step, and the chord from the last output
point to the current scan position is at most acc. -/

lemma segEmit_spec (step : ℝ) (hstep : 0 < step) : ∀ (m : ℕ) (a b : Point) (acc : ℝ),
    0 ≤ acc → acc < step → (m : ℝ) * step ≤ acc + ptDist a b →
    (∀ n ∈ (segEmit step m a b acc).head?, ptDist a n = step - acc) ∧
    List.Chain' (fun u v => ptDist u v ≤ step) (segEmit step m a b acc) ∧
    ptDist ((segEmit step m a b acc).getLastD a) b ≤ acc + ptDist a b - m * step := by
  intro m
  induction m with
  | zero =>
    intro a b acc h0 _ _
    refine ⟨by simp [segEmit], by simp [segEmit], ?_⟩
    have hnil : segEmit step 0 a b acc = [] := rfl
    rw [hnil]
    show ptDist a b ≤ acc + ptDist a b - (0 : ℕ) * step
    push_cast
    linarith
  | succ m ih =>
    intro a b acc h0 h1 hm
    have hmc : ((m : ℝ) + 1) * step ≤ acc + ptDist a b := by push_cast at hm; linarith
    have hmnn : (0 : ℝ) ≤ (m : ℝ) := Nat.cast_nonneg m
    have hstep' : step ≤ ((m : ℝ) + 1) * step := by nlinarith
    have hdpos : 0 < ptDist a b := by linarith
    have hr0 : 0 ≤ (step - acc) / ptDist a b := div_nonneg (by linarith) (le_of_lt hdpos)
    have hr1 : (step - acc) / ptDist a b ≤ 1 := by
      rw [div_le_one hdpos]
      linarith
    have han : ptDist a (lerpPt a b ((step - acc) / ptDist a b)) = step - acc := by
      rw [ptDist_lerp_left a b _ hr0, div_mul_cancel₀]
      exact ne_of_gt hdpos
    have hnb : ptDist (lerpPt a b ((step - acc) / ptDist a b)) b =
        acc + ptDist a b - step := by
      rw [ptDist_lerp_right a b _ hr1]
      field_simp
      ring
    obtain ⟨ihhead, ihchain, ihlast⟩ :=
      ih (lerpPt a b ((step - acc) / ptDist a b)) b 0 le_rfl hstep
        (by rw [hnb]; linarith)
    have hexp : segEmit step (m + 1) a b acc =
        lerpPt a b ((step - acc) / ptDist a b) ::
          segEmit step m (lerpPt a b ((step - acc) / ptDist a b)) b 0 := rfl
    rw [hexp]
    refine ⟨?_, ?_, ?_⟩
    · intro x hx
      simp only [List.head?_cons, Option.mem_def, Option.some.injEq] at hx
      subst hx
      exact han
    · refine List.chain'_cons'.mpr ⟨?_, ihchain⟩
      intro y hy
      have hy' := ihhead y hy
      rw [hy']
      linarith
    · rw [List.getLastD_cons]
      rw [hnb] at ihlast
      push_cast
      linarith

lemma segEmit_getLastD_bound (step : ℝ) (hstep : 0 < step) (m : ℕ) (a b e : Point)
    (acc : ℝ) (h0 : 0 ≤ acc) (h1 : acc < step)
    (hm : (m : ℝ) * step ≤ acc + ptDist a b) (hea : ptDist e a ≤ acc) :
    ptDist ((segEmit step m a b acc).getLastD e) b ≤ acc + ptDist a b - m * step := by
  cases m with
  | zero =>
    have hnil : segEmit step 0 a b acc = [] := rfl
    rw [hnil]
    show ptDist e b ≤ acc + ptDist a b - (0 : ℕ) * step
    have htri := ptDist_triangle e a b
    push_cast
    linarith
  | succ m' =>
    have hcons : segEmit step (m' + 1) a b acc =
        lerpPt a b ((step - acc) / ptDist a b) ::
          segEmit step m' (lerpPt a b ((step - acc) / ptDist a b)) b 0 := rfl
    have hlast := (segEmit_spec step hstep (m' + 1) a b acc h0 h1 hm).2.2
    rw [hcons] at hlast ⊢
    rw [List.getLastD_cons] at hlast ⊢
    exact hlast

lemma resampleGo_spec (step : ℝ) (hstep : 0 < step) : ∀ (l : List Point) (a e : Point)
    (acc : ℝ), 0 ≤ acc → acc < step → ptDist e a ≤ acc →
    List.Chain' (fun u v => ptDist u v ≤ step) (e :: (resampleGo step a l acc).1) ∧
    ptDist ((resampleGo step a l acc).1.getLastD e) (l.getLastD a) < step := by
  intro l
  induction l with
  | nil =>
    intro a e acc _ h1 hea
    refine ⟨by simp [resampleGo], ?_⟩
    show ptDist e a < step
    linarith
  | cons b rest ih =>
    intro a e acc h0 h1 hea
    have hdnn : 0 ≤ ptDist a b := ptDist_nonneg a b
    have hmle : (segSteps step acc (ptDist a b) : ℝ) * step ≤ acc + ptDist a b := by
      rw [segSteps]
      have hnn : 0 ≤ (acc + ptDist a b) / step := div_nonneg (by linarith) (le_of_lt hstep)
      have hfl := mul_le_mul_of_nonneg_right (Nat.floor_le hnn) (le_of_lt hstep)
      calc (⌊(acc + ptDist a b) / step⌋₊ : ℝ) * step
          ≤ ((acc + ptDist a b) / step) * step := hfl
        _ = acc + ptDist a b := by field_simp
    have hnew0 : 0 ≤ acc + ptDist a b - (segSteps step acc (ptDist a b) : ℝ) * step := by
      linarith
    have hnew1 : acc + ptDist a b - (segSteps step acc (ptDist a b) : ℝ) * step < step := by
      have hlt := Nat.lt_floor_add_one ((acc + ptDist a b) / step)
      have h2 : acc + ptDist a b < ((⌊(acc + ptDist a b) / step⌋₊ : ℝ) + 1) * step :=
        (div_lt_iff₀ hstep).mp hlt
      have h3 : ((⌊(acc + ptDist a b) / step⌋₊ : ℝ) + 1) * step =
          (⌊(acc + ptDist a b) / step⌋₊ : ℝ) * step + step := by ring
      rw [segSteps]
      linarith
    obtain ⟨hhead, hchain, _⟩ :=
      segEmit_spec step hstep (segSteps step acc (ptDist a b)) a b acc h0 h1 hmle
    have heb := segEmit_getLastD_bound step hstep (segSteps step acc (ptDist a b)) a b e
      acc h0 h1 hmle hea
    obtain ⟨ihch, ihlast⟩ := ih b
      ((segEmit step (segSteps step acc (ptDist a b)) a b acc).getLastD e)
      (acc + ptDist a b - (segSteps step acc (ptDist a b) : ℝ) * step) hnew0 hnew1 heb
    have hexp1 : (resampleGo step a (b :: rest) acc).1 =
        segEmit step (segSteps step acc (ptDist a b)) a b acc ++
          (resampleGo step b rest
            (acc + ptDist a b - (segSteps step acc (ptDist a b) : ℝ) * step)).1 := rfl
    constructor
    · rw [hexp1, ← List.cons_append]
      have hchainEns : List.Chain' (fun u v => ptDist u v ≤ step)
          (e :: segEmit step (segSteps step acc (ptDist a b)) a b acc) := by
        refine List.chain'_cons'.mpr ⟨?_, hchain⟩
        intro y hy
        have hy' := hhead y hy
        have htri := ptDist_triangle e a y
        linarith
      refine List.chain'_append.mpr ⟨hchainEns, (List.chain'_cons'.mp ihch).2, ?_⟩
      intro x hx y hy
      rw [getLast?_cons_getLastD] at hx
      simp only [Option.mem_def, Option.some.injEq] at hx
      subst hx
      exact (List.chain'_cons'.mp ihch).1 y hy
    · rw [hexp1, getLastD_append, List.getLastD_cons]
      exact ihlast

/-! ## Lemmas about the reveal frame step -/

lemma sumDt_nonneg (segs : List Seg) (h : ∀ s ∈ segs, 0 ≤ s.b.dt) : 0 ≤ sumDt segs := by
  rw [sumDt]
  refine List.sum_nonneg ?_
  intro x hx
  obtain ⟨s, hs, rfl⟩ := List.mem_map.mp hx
  exact h s hs

lemma sumDt_cons (seg : Seg) (rest : List Seg) :
    sumDt (seg :: rest) = seg.b.dt + sumDt rest := by
  simp [sumDt]

lemma revealGo_all (segs : List Seg) : ∀ (tAcc elapsed : ℝ),
    (∀ s ∈ segs, 0 ≤ s.b.dt) → tAcc + sumDt segs ≤ elapsed →
    revealGo elapsed segs tAcc = (segs, none) := by
  induction segs with
  | nil => intro tAcc elapsed _ _; rfl
  | cons seg rest ih =>
    intro tAcc elapsed h hle
    have hrest : ∀ s ∈ rest, 0 ≤ s.b.dt := fun s hs => h s (List.mem_cons_of_mem _ hs)
    have hsum : 0 ≤ sumDt rest := sumDt_nonneg rest hrest
    have hcons := sumDt_cons seg rest
    have hcond : tAcc + seg.b.dt ≤ elapsed := by linarith
    rw [revealGo]
    simp only
    rw [if_pos hcond, ih (tAcc + seg.b.dt) elapsed hrest (by linarith)]

/-! ## Lemmas about resampleStroke's input mutation -/

lemma resampleGo_sublist (l : List Point) : ∀ (a : Point) (step acc : ℝ),
    l.Sublist (resampleGo step a l acc).2 := by
  induction l with
  | nil => intro a step acc; exact List.nil_sublist _
  | cons b rest ih =>
    intro a step acc
    rw [resampleGo]
    simp only
    have h := ih b step (acc + ptDist a b - segSteps step acc (ptDist a b) * step)
    exact ((h.cons₂ b).trans (List.sublist_append_right _ _))

/-! ## Lemmas about the per-stroke build of approveCurrentCapture -/

lemma resampleStroke_cons_cons (p0 p1 : Point) (rest : List Point) (step : ℝ) :
    (resampleStroke (p0 :: p1 :: rest) step).1 =
      p0 :: ((resampleGo step p0 (p1 :: rest) 0).1 ++
        [(p1 :: rest).getLast (List.cons_ne_nil p1 rest)]) := rfl

lemma canvasToEm_length (pts : List Point) (box : Rect) (emSize : ℝ) :
    (canvasToEm pts box emSize).length = pts.length := by
  simp [canvasToEm]

/-! ## Claim theorems -/

def vid : String := "v1"
def wid : String := "w1"

/-- C1 (counterexample): called with zero strokes, createVariantFromStrokes
does not fail with an EmptyCaptureError (no such error exists anywhere in
the code); it returns an ordinary Variant with no strokes and zeroed
stats. -/
theorem createVariantFromStrokes_empty_returns :
    createVariantFromStrokes vid [] = ⟨vid, false, 1, [], ⟨0, 0⟩⟩ := by
  simp [createVariantFromStrokes, round2_zero]

/-- C1 (amended): building a variant from zero strokes or all-empty strokes
does not raise any error; createVariantFromStrokes totally returns a
Variant whose stats are durationMs = 0 and arcLen = 0 and whose per-stroke
data is empty.  (The UI caller approveCurrentCapture merely returns early
when no stroke exists.) -/
theorem createVariantFromStrokes_all_empty_no_error (id : String)
    (raw : List (List Point)) (h : ∀ s ∈ raw, s = []) :
    (createVariantFromStrokes id raw).stats.durationMs = 0 ∧
    (createVariantFromStrokes id raw).stats.arcLen = 0 ∧
    ∀ st ∈ (createVariantFromStrokes id raw).strokes,
      st.points = [] ∧ st.resampled = [] := by
  have hflat : raw.flatten = [] := by
    rw [List.flatten_eq_nil_iff]
    intro s hs
    exact h s hs
  refine ⟨?_, ?_, ?_⟩
  · simp [createVariantFromStrokes, hflat]
  · simp [createVariantFromStrokes, arcLen_foldl_all_empty raw h, round2_zero]
  · intro st hst
    simp only [createVariantFromStrokes, List.mem_map] at hst
    obtain ⟨points, hp, rfl⟩ := hst
    have : points = [] := h points hp
    subst this
    exact ⟨rfl, rfl⟩

/-- C1 (witness for the amended theorem). -/
theorem createVariantFromStrokes_all_empty_no_error_witness :
    (createVariantFromStrokes wid [[]]).stats.durationMs = 0 ∧
    (createVariantFromStrokes wid [[]]).stats.arcLen = 0 ∧
    ∀ st ∈ (createVariantFromStrokes wid [[]]).strokes,
      st.points = [] ∧ st.resampled = [] :=
  createVariantFromStrokes_all_empty_no_error wid [[]] (by simp)

/-- C2: for a variant built from raw strokes whose flattened point list is
non-empty and temporally ordered (the data model guarantees monotonically
non-decreasing timestamps), stats.durationMs equals the maximum raw
timestamp minus the minimum raw timestamp; with a single point this is 0. -/
theorem createVariantFromStrokes_durationMs (id : String) (raw : List (List Point))
    (hne : raw.flatten ≠ [])
    (hmono : List.Chain' (· ≤ ·) (raw.flatten.map Point.t)) :
    (createVariantFromStrokes id raw).stats.durationMs =
      listMax (raw.flatten.map Point.t) - listMin (raw.flatten.map Point.t) := by
  obtain ⟨q, rest, hq⟩ := List.exists_cons_of_ne_nil hne
  rw [List.chain'_iff_pairwise] at hmono
  rw [hq] at hmono ⊢
  have hmax : listMax ((q :: rest).map Point.t) = (rest.getLastD q).t := by
    rw [List.map_cons, listMax, foldl_max_pairwise _ _ (by simpa using hmono)]
    exact getLastD_t_map q rest
  have hmin : listMin ((q :: rest).map Point.t) = q.t := by
    rw [List.map_cons, listMin, foldl_min_pairwise _ _ (by simpa using hmono)]
  rw [hmax, hmin]
  simp [createVariantFromStrokes, hq, List.getLast_eq_getLastD]

/-- C2 (witness). -/
theorem createVariantFromStrokes_durationMs_witness :
    (createVariantFromStrokes vid [[⟨0, 0, 0, 0⟩, ⟨1, 0, 5, 0⟩]]).stats.durationMs =
      listMax (([[(⟨0, 0, 0, 0⟩ : Point), ⟨1, 0, 5, 0⟩]] : List (List Point)).flatten.map Point.t) -
      listMin (([[(⟨0, 0, 0, 0⟩ : Point), ⟨1, 0, 5, 0⟩]] : List (List Point)).flatten.map Point.t) :=
  createVariantFromStrokes_durationMs vid [[⟨0, 0, 0, 0⟩, ⟨1, 0, 5, 0⟩]]
    (by simp) (by norm_num [List.chain'_cons])

/-- C8 (counterexample): the resampled sequence is not strictly ordered by
cumulative arc length: a stroke containing the same position twice (here
two samples at the origin, 5 ms apart) yields two ResampledPoints with
equal s, so s is not strictly increasing. -/
theorem resamplePoints_s_not_strict :
    ¬ List.Chain' (fun u v : RPoint => u.s < v.s)
      (resamplePoints [⟨0, 0, 0, 0⟩, ⟨0, 0, 5, 0⟩]) := by
  intro h
  simp only [resamplePoints, resamplePointsGo, List.chain'_cons, List.chain'_singleton,
    and_true] at h
  norm_num [Real.sqrt_zero] at h

/-- C8 (amended): within one stroke's resampled sequence produced by
resamplePoints, the cumulative arc length s is non-decreasing (strictness
fails only when consecutive points coincide or rounding collapses a tiny
step). -/
theorem resamplePoints_s_monotone (pts : List Point) :
    List.Chain' (fun u v : RPoint => u.s ≤ v.s) (resamplePoints pts) := by
  cases pts with
  | nil => simp [resamplePoints]
  | cons q rest =>
    rw [resamplePoints]
    refine List.chain'_cons'.mpr ⟨?_, (resamplePointsGo_s_chain rest q 0).1⟩
    intro y hy
    exact (resamplePointsGo_s_chain rest q 0).2 y hy

/-- C9: the em-space normalizer maps every point by the affine formula
x ↦ (x - box.x) / box.w * emSize (y analogously with box.h), passing t and
p through unchanged; in particular the point (50, 50) with glyph box
(0, 0, 100, 100) and emSize 1000 maps to (500, 500). -/
theorem canvasToEm_formula :
    (∀ (pts : List Point) (box : Rect) (emSize : ℝ),
      canvasToEm pts box emSize = pts.map fun pt =>
        ⟨(pt.x - box.x) / box.w * emSize, (pt.y - box.y) / box.h * emSize, pt.t, pt.p⟩) ∧
    canvasToEm [⟨50, 50, 0, 1 / 2⟩] ⟨0, 0, 100, 100⟩ 1000 = [⟨500, 500, 0, 1 / 2⟩] := by
  refine ⟨fun pts box emSize => rfl, ?_⟩
  norm_num [canvasToEm]

/-- C10: drawPreview's total animation time totalT sums max(1, dt) over all
segments, hence is at least the number of segments; in particular the
termination test `elapsed >= totalT + 16` can never fire at elapsed 0, so a
variant whose segments all have dt = 0 still animates rather than
completing immediately. -/
theorem totalT_ge_segment_count (v : Variant) :
    ((segmentsOf v).length : ℝ) ≤ totalT (segmentsOf v) ∧
    ¬ ((0 : ℝ) ≥ totalT (segmentsOf v) + 16) := by
  have h := totalT_foldl_ge (segmentsOf v) 0
  rw [zero_add] at h
  have hlen : (0 : ℝ) ≤ ((segmentsOf v).length : ℝ) := Nat.cast_nonneg _
  exact ⟨h, by rw [totalT]; push_neg; linarith⟩

def pA : Point := ⟨0, 0, 0, 1 / 2⟩
def pB : Point := ⟨4, 0, 8, 1 / 2⟩

lemma ptDist_pA_pB : ptDist pA pB = 4 := by
  rw [ptDist, pA, pB]
  norm_num
  rw [show (16 : ℝ) = 4 ^ 2 by norm_num, Real.sqrt_sq (by norm_num)]

lemma segSteps_3_0_4 : segSteps 3 0 4 = 1 := by
  rw [segSteps, Nat.floor_eq_iff (by norm_num)]
  norm_num

/-- C3 (counterexample): resampleStroke is not free of side effects on its
input: on the two-point stroke pA → pB with step 3 it splices the
interpolated point into the input array, whose final state has three
elements instead of the original two. -/
theorem resampleStroke_mutates_input :
    (resampleStroke [pA, pB] 3).2 ≠ [pA, pB] := by
  intro h
  have hlen := congrArg List.length h
  rw [resampleStroke] at hlen
  simp only [resampleGo, segSteps_3_0_4, ptDist_pA_pB, segEmit] at hlen
  simp at hlen

/-- C3 (amended): resampleStroke is deterministic and never alters the
point values the input contains, but it is not pure: it mutates the input
array by splicing each emitted interpolated point in just before the
segment end it was computed on.  The original points survive, in order, as
a sublist of the final array; the callers protect themselves by passing a
copy (`s.slice()`). -/
theorem resampleStroke_input_sublist (pts : List Point) (step : ℝ) (_h : 0 < step) :
    pts.Sublist (resampleStroke pts step).2 := by
  match pts with
  | [] => exact List.nil_sublist _
  | [q] => exact List.Sublist.refl _
  | p0 :: p1 :: rest =>
    rw [resampleStroke]
    simp only
    exact (resampleGo_sublist (p1 :: rest) p0 step 0).cons₂ p0

/-- C3 (witness for the amended theorem). -/
theorem resampleStroke_input_sublist_witness :
    List.Sublist [pA, pB] (resampleStroke [pA, pB] 3).2 :=
  resampleStroke_input_sublist [pA, pB] 3 (by norm_num)

/-- A variant with a single stroke of two resampled points whose second
point has dt = 0: its single reveal segment has arrival time 0. -/
def v0 : Variant :=
  ⟨vid, true, 1, [⟨[], [⟨0, 0, 0, 1 / 2, 0⟩, ⟨10, 0, 0, 1 / 2, 10⟩]⟩], ⟨0, 0⟩⟩

/-- A variant with a single stroke of two resampled points whose second
point has dt = 7, giving one reveal segment with positive dt. -/
def v1 : Variant :=
  ⟨wid, true, 1, [⟨[], [⟨0, 0, 0, 1 / 2, 0⟩, ⟨10, 0, 7, 1 / 2, 10⟩]⟩], ⟨0, 0⟩⟩

def pC1 : Point := ⟨3, 0, 1, 1 / 2⟩
def pC2 : Point := ⟨0, 0, 2, 1 / 2⟩

lemma ptDist_pA_pC1 : ptDist pA pC1 = 3 := by
  rw [ptDist, pA, pC1]
  norm_num
  rw [show (9 : ℝ) = 3 ^ 2 by norm_num, Real.sqrt_sq (by norm_num)]

lemma ptDist_pC1_pC2 : ptDist pC1 pC2 = 3 := by
  rw [ptDist, pC1, pC2]
  norm_num
  rw [show (9 : ℝ) = 3 ^ 2 by norm_num, Real.sqrt_sq (by norm_num)]

lemma segSteps_5_0_3 : segSteps 5 0 3 = 0 := by
  rw [segSteps, Nat.floor_eq_zero]
  norm_num

lemma segSteps_5_3_3 : segSteps 5 3 3 = 1 := by
  rw [segSteps, Nat.floor_eq_iff (by norm_num)]
  norm_num

/-- C4 (counterexample): on the stroke (0,0) → (3,0) → (0,0) resampled at
step 5, the first output segment joins (0,0) to the interpolated point
(1,0): its Euclidean length is 1, nowhere near the interval [5 - ε, 5 + ε]
even for the enormous tolerance ε = 1.  The resampler is step-accurate
along the input polyline, but the straight-line chord between consecutive
output points collapses when the stroke doubles back within one step. -/
theorem resampleStroke_chord_below_step :
    (resampleStroke [pA, pC1, pC2] 5).1 = [pA, ⟨1, 0, 5 / 3, 1 / 2⟩, pC2] ∧
    ptDist pA ⟨1, 0, 5 / 3, 1 / 2⟩ = 1 ∧ ¬((5 : ℝ) - 1 ≤ 1) := by
  refine ⟨?_, ?_, by norm_num⟩
  · show (pA :: ((resampleGo 5 pA [pC1, pC2] 0).1 ++
        [[pC1, pC2].getLast (by simp)])) = [pA, ⟨1, 0, 5 / 3, 1 / 2⟩, pC2]
    have h1 : resampleGo 5 pC2 [] (3 + 3 - (1 : ℕ) * 5) = ([], []) := rfl
    have h2 : resampleGo 5 pC1 [pC2] 3 =
        (segEmit 5 (segSteps 5 3 (ptDist pC1 pC2)) pC1 pC2 3 ++
          (resampleGo 5 pC2 []
            (3 + ptDist pC1 pC2 - (segSteps 5 3 (ptDist pC1 pC2) : ℕ) * 5)).1,
         segEmit 5 (segSteps 5 3 (ptDist pC1 pC2)) pC1 pC2 3 ++ pC2 ::
          (resampleGo 5 pC2 []
            (3 + ptDist pC1 pC2 - (segSteps 5 3 (ptDist pC1 pC2) : ℕ) * 5)).2) := rfl
    have h3 : resampleGo 5 pA [pC1, pC2] 0 =
        (segEmit 5 (segSteps 5 0 (ptDist pA pC1)) pA pC1 0 ++
          (resampleGo 5 pC1 [pC2]
            (0 + ptDist pA pC1 - (segSteps 5 0 (ptDist pA pC1) : ℕ) * 5)).1,
         segEmit 5 (segSteps 5 0 (ptDist pA pC1)) pA pC1 0 ++ pC1 ::
          (resampleGo 5 pC1 [pC2]
            (0 + ptDist pA pC1 - (segSteps 5 0 (ptDist pA pC1) : ℕ) * 5)).2) := rfl
    rw [h3, ptDist_pA_pC1, segSteps_5_0_3]
    norm_num
    rw [h2, ptDist_pC1_pC2, segSteps_5_3_3]
    have hemit : segEmit 5 1 pC1 pC2 3 = [lerpPt pC1 pC2 ((5 - 3) / ptDist pC1 pC2)] := rfl
    rw [hemit, ptDist_pC1_pC2]
    have hrec : (resampleGo 5 pC2 [] (3 + 3 - ((1 : ℕ) : ℝ) * 5)).1 = [] := rfl
    rw [hrec]
    simp [lerpPt, pC1, pC2, List.getLast]
    norm_num
    rfl
  · rw [ptDist, pA]
    norm_num

/-- C4 (amended): the resampler is step-accurate along the input polyline,
so the Euclidean length of every output segment (including the last) is at
most S; it can fall arbitrarily short of S when the stroke bends back
within one step, so the claimed lower bound S - ε fails.  The output's last
point equals the input's last point. -/
theorem resampleStroke_spacing (pts : List Point) (step : ℝ) (hstep : 0 < step) :
    List.Chain' (fun u v => ptDist u v ≤ step) (resampleStroke pts step).1 ∧
    (pts ≠ [] → (resampleStroke pts step).1.getLastD default = pts.getLastD default) := by
  match pts with
  | [] => exact ⟨by simp [resampleStroke], fun hne => absurd rfl hne⟩
  | [q] => exact ⟨by simp [resampleStroke], fun _ => rfl⟩
  | p0 :: p1 :: rest =>
    obtain ⟨hch, hlast⟩ := resampleGo_spec step hstep (p1 :: rest) p0 p0 0 le_rfl hstep
      (by rw [ptDist_self])
    have hexp : (resampleStroke (p0 :: p1 :: rest) step).1 =
        p0 :: ((resampleGo step p0 (p1 :: rest) 0).1 ++
          [(p1 :: rest).getLast (List.cons_ne_nil p1 rest)]) := rfl
    constructor
    · rw [hexp, ← List.cons_append]
      refine List.chain'_append.mpr ⟨hch, List.chain'_singleton _, ?_⟩
      intro x hx y hy
      rw [getLast?_cons_getLastD] at hx
      simp only [Option.mem_def, Option.some.injEq] at hx
      subst hx
      simp only [List.head?_cons, Option.mem_def, Option.some.injEq] at hy
      subst hy
      have hgl : (p1 :: rest).getLast (List.cons_ne_nil p1 rest) =
          (p1 :: rest).getLastD p0 := by
        rw [List.getLast_eq_getLastD, List.getLastD_cons]
      rw [hgl]
      exact le_of_lt hlast
    · intro _
      rw [hexp, List.getLastD_cons, getLastD_append]
      have hsing : ∀ z : Point, ([(p1 :: rest).getLast (List.cons_ne_nil p1 rest)] :
          List Point).getLastD z = (p1 :: rest).getLast (List.cons_ne_nil p1 rest) :=
        fun z => rfl
      rw [hsing, List.getLast_eq_getLastD, List.getLastD_cons, List.getLastD_cons]

/-- C4 (witness for the amended theorem). -/
theorem resampleStroke_spacing_witness :
    List.Chain' (fun u v => ptDist u v ≤ 3) (resampleStroke [pA, pB] 3).1 ∧
    (([pA, pB] : List Point) ≠ [] →
      (resampleStroke [pA, pB] 3).1.getLastD default = ([pA, pB] : List Point).getLastD default) :=
  resampleStroke_spacing [pA, pB] 3 (by norm_num)

/-- C5 (counterexample): evaluating the frame step at elapsed = 0 does not
reveal 0% of the segments for every variant: for v0, whose only segment
has dt = 0, the segment's arrival time is 0 ≤ elapsed, so it is drawn in
full already at elapsed 0. -/
theorem revealAt_zero_reveals_dt_zero_segment :
    segmentsOf v0 ≠ [] ∧ (revealAt (segmentsOf v0) 0).1 = segmentsOf v0 := by
  constructor
  · simp [segmentsOf, v0, segPairs]
  · rw [revealAt]
    have hsegs : segmentsOf v0 = [⟨⟨0, 0, 0, 1 / 2, 0⟩, ⟨10, 0, 0, 1 / 2, 10⟩⟩] := by
      simp [segmentsOf, v0, segPairs]
    rw [hsegs]
    norm_num [revealGo]

/-- C5 (amended): for a variant whose segments all have nonnegative dt (the
data model's monotone timestamps guarantee this), the frame step at
elapsed = sum of all segment dts draws every segment in full; the frame
step at elapsed = 0 draws no segment in full, and its partial segment has
fraction 0, provided the first segment's dt is positive — a leading
segment with dt = 0 is instead already fully drawn at elapsed 0. -/
theorem revealAt_complete_and_start (v : Variant)
    (h1 : ∀ s ∈ segmentsOf v, 0 ≤ s.b.dt)
    (h2 : ∀ s ∈ (segmentsOf v).head?, 0 < s.b.dt) :
    (revealAt (segmentsOf v) (sumDt (segmentsOf v))).1 = segmentsOf v ∧
    (revealAt (segmentsOf v) 0).1 = [] ∧
    ∀ pr ∈ (revealAt (segmentsOf v) 0).2, pr.2 = 0 := by
  refine ⟨?_, ?_⟩
  · rw [revealAt, revealGo_all (segmentsOf v) 0 (sumDt (segmentsOf v)) h1 (by linarith)]
  · cases hsegs : segmentsOf v with
    | nil => rw [revealAt]; exact ⟨rfl, by intro pr hpr; simp [revealGo] at hpr⟩
    | cons seg rest =>
      have hdt : 0 < seg.b.dt := h2 seg (by rw [hsegs]; rfl)
      rw [revealAt, revealGo]
      simp only
      rw [if_neg (by push_neg; linarith)]
      refine ⟨rfl, ?_⟩
      intro pr hpr
      simp only [Option.mem_def, Option.some.injEq] at hpr
      subst hpr
      norm_num

lemma walkResampled_length (l : List Point) : ∀ (a : Point) (sCum : ℝ),
    (walkResampled a sCum l).length = l.length := by
  induction l with
  | nil => intro a sCum; rfl
  | cons b rest ih =>
    intro a sCum
    rw [walkResampled]
    simp only [List.length_cons, ih]

lemma resampleStroke_out_two_le (p0 p1 : Point) (rest : List Point) (step : ℝ) :
    2 ≤ ((resampleStroke (p0 :: p1 :: rest) step).1).length := by
  rw [resampleStroke_cons_cons]
  simp

/-- Evaluation of buildStroke on a single-point stroke: the resampler and
normalizer keep the single point, the ResampledPoint walk is empty, and the
fallback emits the single dt = 0, s = 0 point. -/
lemma buildStroke_singleton (box : Rect) (emSize stepPx : ℝ) (q : Point) :
    buildStroke box emSize stepPx [q] =
      some ⟨[⟨(q.x - box.x) / box.w * emSize, (q.y - box.y) / box.h * emSize, q.t, q.p⟩],
        [⟨(q.x - box.x) / box.w * emSize, (q.y - box.y) / box.h * emSize, 0, q.p, 0⟩]⟩ :=
  rfl

lemma buildStroke_two_le (box : Rect) (emSize stepPx : ℝ) (p0 p1 : Point)
    (rest : List Point) :
    buildStroke box emSize stepPx (p0 :: p1 :: rest) =
      some ⟨canvasToEm (resampleStroke (p0 :: p1 :: rest) stepPx).1 box emSize,
        mkResampled (canvasToEm (resampleStroke (p0 :: p1 :: rest) stepPx).1 box emSize)⟩ ∧
    1 ≤ (mkResampled
      (canvasToEm (resampleStroke (p0 :: p1 :: rest) stepPx).1 box emSize)).length := by
  have hlen : 2 ≤ ((resampleStroke (p0 :: p1 :: rest) stepPx).1).length :=
    resampleStroke_out_two_le p0 p1 rest stepPx
  have hemlen : 2 ≤ (canvasToEm (resampleStroke (p0 :: p1 :: rest) stepPx).1 box emSize).length := by
    rw [canvasToEm_length]; exact hlen
  obtain ⟨e0, etl, hem⟩ : ∃ e0 etl,
      canvasToEm (resampleStroke (p0 :: p1 :: rest) stepPx).1 box emSize = e0 :: etl :=
    List.exists_cons_of_ne_nil (by intro hnil; rw [hnil] at hemlen; simp at hemlen)
  have hetl : etl ≠ [] := by
    intro hnil
    rw [hem, hnil] at hemlen
    simp at hemlen
  obtain ⟨e1, etl2, hetl2⟩ := List.exists_cons_of_ne_nil hetl
  have hmk : mkResampled (canvasToEm (resampleStroke (p0 :: p1 :: rest) stepPx).1 box emSize) =
      ⟨e1.x, e1.y, e1.t - e0.t, e1.p, 0 + ptDist e0 e1⟩ ::
        walkResampled e1 (0 + ptDist e0 e1) etl2 := by
    rw [hem, hetl2, mkResampled, walkResampled]
  constructor
  · simp only [buildStroke]
    rw [hmk, hem]
  · rw [hmk]
    simp

/-- C7: for every non-empty raw stroke, the stroke built by
approveCurrentCapture has a resampled array of length at least 1; a stroke
with fewer than 2 em-space points after resampling yields exactly one
ResampledPoint with dt = 0 and s = 0 carrying that single point's
coordinates and pressure. -/
theorem buildStroke_min_output (box : Rect) (emSize stepPx : ℝ) (s : List Point)
    (h : s ≠ []) :
    ∃ st, buildStroke box emSize stepPx s = some st ∧ 1 ≤ st.resampled.length ∧
      (st.points.length < 2 →
        ∃ e, st.points = [e] ∧ st.resampled = [⟨e.x, e.y, 0, e.p, 0⟩]) := by
  match s with
  | [] => exact absurd rfl h
  | [q] =>
    refine ⟨_, buildStroke_singleton box emSize stepPx q, by simp, ?_⟩
    intro _
    exact ⟨⟨(q.x - box.x) / box.w * emSize, (q.y - box.y) / box.h * emSize, q.t, q.p⟩,
      rfl, rfl⟩
  | p0 :: p1 :: rest =>
    obtain ⟨heq, hlen⟩ := buildStroke_two_le box emSize stepPx p0 p1 rest
    refine ⟨_, heq, hlen, ?_⟩
    intro hlt
    exfalso
    have h2 : 2 ≤ (canvasToEm (resampleStroke (p0 :: p1 :: rest) stepPx).1 box emSize).length := by
      rw [canvasToEm_length]
      exact resampleStroke_out_two_le p0 p1 rest stepPx
    simp only at hlt
    omega

/-- C7 (witness). -/
theorem buildStroke_min_output_witness :
    ∃ st, buildStroke ⟨0, 0, 100, 100⟩ 1000 3 [pA] = some st ∧ 1 ≤ st.resampled.length ∧
      ((st.points.length < 2 →
        ∃ e, st.points = [e] ∧ st.resampled = [⟨e.x, e.y, 0, e.p, 0⟩])) :=
  buildStroke_min_output ⟨0, 0, 100, 100⟩ 1000 3 [pA] (by simp)

/-- C6: exporting a persisted character entry to the canonical schema-
version-1 JSON shape and importing it back yields a structurally identical
object: the decoder inverts the encoder on every CharacterData, including
all nested strokes, points, resampled arrays and stats. -/
theorem decode_encode_characterData (cd : CharacterData) :
    decodeCharacterData (encodeCharacterData cd) = some cd := by
  have hv := mapM_map_of_roundtrip encodeVariant decodeVariant decodeVariant_encodeVariant
    cd.variants
  simp [decodeCharacterData, encodeCharacterData, jGet, Json.asObj, Json.asArr,
    hv, decodeMetrics_encodeMetrics, kMetrics, kVariants]

/-- C5 (witness for the amended theorem). -/
theorem revealAt_complete_and_start_witness :
    (revealAt (segmentsOf v1) (sumDt (segmentsOf v1))).1 = segmentsOf v1 ∧
    (revealAt (segmentsOf v1) 0).1 = [] ∧
    ∀ pr ∈ (revealAt (segmentsOf v1) 0).2, pr.2 = 0 :=
  revealAt_complete_and_start v1
    (by intro s hs; simp [segmentsOf, v1, segPairs] at hs; subst hs; norm_num)
    (by intro s hs; simp [segmentsOf, v1, segPairs] at hs; subst hs; norm_num)

end

end HW
